import Mathlib

set_option maxRecDepth 100000

/-!
Verification of the nanostream tile codec (src/nanostream.c, src/nanostream.h,
src/eval/main.cpp).

Modelling conventions:
* C `float` values are modelled by exact rational numbers (`ℚ`); the spec states
  its laws over real values.  `lrintf` (round to nearest) is modelled by `round`.
* C `int` is modelled by `ℤ` where signedness matters, byte values by `ℕ`.
* The constant statistical basis (`nanostream_mean`, `nanostream_eigen_values`)
  is external data declared `extern` in the source; it is passed as an explicit
  read-only argument, as §9 of the spec prescribes.
* Pixel buffers are modelled as total functions `ℕ → ℕ` from byte addresses to
  byte values, with the same pointer arithmetic as the C source.
-/

namespace Nanostream

/-- Embedding of `u8_to_f32` (src/nanostream.c:16-20): scale an 8-bit sample
by `1/255`. -/
def u8_to_f32 (x : ℕ) : ℚ := (x : ℚ) * (1 / 255)

/-- Embedding of `f32_to_u8` (src/nanostream.c:22-36): clamp to `[0,1]`, scale
by 255, round to nearest, clamp the integer to `[0,255]`. -/
def f32_to_u8 (x : ℚ) : ℕ :=
  let y1 : ℚ := if x < 0 then 0 else x
  let y2 : ℚ := if y1 > 1 then 1 else y1
  let v1 : ℤ := round (y2 * 255)
  let v2 : ℤ := if v1 < 0 then 0 else v1
  let v3 : ℤ := if v2 > 255 then 255 else v2
  v3.toNat

/-- Embedding of `quantize_f32` (src/nanostream.c:78-100): map `x` in
`[min_x, max_x]` to an integer code in `[0, res]`, returning 0 when `res ≤ 0`
or when the range is degenerate (the C guard `!(denom > 0.0F)`). -/
def quantize_f32 (x min_x max_x : ℚ) (res : ℤ) : ℤ :=
  if res ≤ 0 then 0
  else
    let denom := max_x - min_x
    if ¬ (denom > 0) then 0
    else
      let t0 := (x - min_x) / denom
      let t1 := if t0 < 0 then 0 else t0
      let t2 := if t1 > 1 then 1 else t1
      let q0 := round (t2 * (res : ℚ))
      let q1 := if q0 < 0 then 0 else q0
      if q1 > res then res else q1

/-- Embedding of `dequantize_f32` (src/nanostream.c:102-116): clamp the code to
`[0, res]` and map it back to `min_x + (code/res)·(max_x − min_x)`, returning
`min_x` when `res ≤ 0`. -/
def dequantize_f32 (q : ℤ) (min_x max_x : ℚ) (res : ℤ) : ℚ :=
  if res ≤ 0 then min_x
  else
    let qq1 := if q < 0 then 0 else q
    let qq2 := if qq1 > res then res else qq1
    let t : ℚ := (qq2 : ℚ) * (1 / (res : ℚ))
    min_x + t * (max_x - min_x)

/-- Embedding of the byte-packing part of `quantize_eigen_values`
(src/nanostream.c:132-135): pack codes with bit widths 8/8/4/4/2/2/2/2 into
4 bytes.  The `(unsigned char)` casts are the `% 256` reductions. -/
def pack_codes (q0 q1 q2 q3 q4 q5 q6 q7 : ℕ) : ℕ × ℕ × ℕ × ℕ :=
  ( (q0 &&& 0xFF) % 256
  , (q1 &&& 0xFF) % 256
  , (((q2 &&& 0x0F) <<< 4) ||| (q3 &&& 0x0F)) % 256
  , ((q4 &&& 0x03) ||| ((q5 &&& 0x03) <<< 2) ||| ((q6 &&& 0x03) <<< 4) ||| ((q7 &&& 0x03) <<< 6)) % 256 )

/-- Embedding of the bit extraction in `nanostream_decode_tile`
(src/nanostream.c:226-234): recover the 8 codes from the 4 record bytes. -/
def unpack_codes (b0 b1 b2 b3 : ℕ) : ℕ × ℕ × ℕ × ℕ × ℕ × ℕ × ℕ × ℕ :=
  ( b0
  , b1
  , (b2 >>> 4) &&& 0x0F
  , b2 &&& 0x0F
  , b3 &&& 0x03
  , (b3 >>> 2) &&& 0x03
  , (b3 >>> 4) &&& 0x03
  , (b3 >>> 6) &&& 0x03 )

/-- Embedding of `block_to_vec` (src/nanostream.c:38-52): read an 8x8 RGB
block through pointer `p` with row stride `pitch` into a 192-dimensional
vector, planar R then G then B, row-major inside each plane: slot
`plane·64 + y·8 + x` holds sample `p (y·pitch + x·3 + plane)` scaled to
`[0,1]`. -/
def block_to_vec (p : ℕ → ℕ) (pitch : ℕ) : Fin 192 → ℚ :=
  fun idx =>
    let plane := idx.val / 64
    let y := (idx.val % 64) / 8
    let x := idx.val % 8
    u8_to_f32 (p (y * pitch + x * 3 + plane))

/-- A byte slot of the serialized packet.  Bytes produced by `memcpy` of a
32-bit float (the TileRange header) are modelled symbolically as `f x k`, the
`k`-th of the four bytes of `x` (the IEEE-754 bit image itself is memory
layout and is not modelled); quantized record bytes are plain `q n`. -/
inductive PByte where
  | f (x : ℚ) (k : Fin 4)
  | q (n : ℕ)
deriving DecidableEq

/-- The 4 bytes `memcpy` writes for one 32-bit float of the header. -/
def f32bytes (x : ℚ) : List PByte := (List.finRange 4).map (PByte.f x)

/-- Reading one record byte of the packet (`packet_buffer[k]` in
src/nanostream.c:220-223). -/
def readQ (p : ℕ → PByte) (a : ℕ) : ℕ :=
  match p a with
  | .q n => n
  | .f _ _ => 0

/-- Reading one header float via `memcpy` (src/nanostream.c:209-213): the
float whose serialized first byte sits at address `a`; symbolic inverse of
`f32bytes`. -/
def readF32 (p : ℕ → PByte) (a : ℕ) : ℚ :=
  match p a with
  | .f x k => if k.val = 0 then x else 0
  | .q _ => 0

/-- Embedding of `quantize_eigen_values` (src/nanostream.c:119-136): quantize
the 8 coefficients with level counts 255/255/15/15/3/3/3/3 and pack the codes
into the 4 record bytes.  The C `int` codes are nonnegative, so `Int.toNat`
is exact. -/
def quantize_eigen_values (ev ev_min ev_max : Fin 8 → ℚ) : Fin 4 → ℕ :=
  let q0 := (quantize_f32 (ev 0) (ev_min 0) (ev_max 0) 255).toNat
  let q1 := (quantize_f32 (ev 1) (ev_min 1) (ev_max 1) 255).toNat
  let q2 := (quantize_f32 (ev 2) (ev_min 2) (ev_max 2) 15).toNat
  let q3 := (quantize_f32 (ev 3) (ev_min 3) (ev_max 3) 15).toNat
  let q4 := (quantize_f32 (ev 4) (ev_min 4) (ev_max 4) 3).toNat
  let q5 := (quantize_f32 (ev 5) (ev_min 5) (ev_max 5) 3).toNat
  let q6 := (quantize_f32 (ev 6) (ev_min 6) (ev_max 6) 3).toNat
  let q7 := (quantize_f32 (ev 7) (ev_min 7) (ev_max 7) 3).toNat
  let bits := pack_codes q0 q1 q2 q3 q4 q5 q6 q7
  fun j =>
    if j.val = 0 then bits.1
    else if j.val = 1 then bits.2.1
    else if j.val = 2 then bits.2.2.1
    else bits.2.2.2

/-- Embedding of the per-record dequantization in `nanostream_decode_tile`
(src/nanostream.c:226-243): unpack the four record bytes and dequantize each
coefficient against the tile range, with the same level counts as encoding. -/
def decode_block_ev (ev_min ev_max : Fin 8 → ℚ) (b0 b1 b2 b3 : ℕ) : Fin 8 → ℚ :=
  let u := unpack_codes b0 b1 b2 b3
  fun i =>
    if i.val = 0 then dequantize_f32 u.1 (ev_min 0) (ev_max 0) 255
    else if i.val = 1 then dequantize_f32 u.2.1 (ev_min 1) (ev_max 1) 255
    else if i.val = 2 then dequantize_f32 u.2.2.1 (ev_min 2) (ev_max 2) 15
    else if i.val = 3 then dequantize_f32 u.2.2.2.1 (ev_min 3) (ev_max 3) 15
    else if i.val = 4 then dequantize_f32 u.2.2.2.2.1 (ev_min 4) (ev_max 4) 3
    else if i.val = 5 then dequantize_f32 u.2.2.2.2.2.1 (ev_min 5) (ev_max 5) 3
    else if i.val = 6 then dequantize_f32 u.2.2.2.2.2.2.1 (ev_min 6) (ev_max 6) 3
    else dequantize_f32 u.2.2.2.2.2.2.2 (ev_min 7) (ev_max 7) 3

/-- The three byte writes of `vec_to_block` (src/nanostream.c:192-199) for
one pixel `(y, x)`: channels R,G,B taken from planes 0,1,2 of the vector. -/
def pixel_writes (base pitch : ℕ) (v : Fin 192 → ℚ) (y x : Fin 8) : List (ℕ × ℕ) :=
  [ (base + y.val * pitch + x.val * 3,
     f32_to_u8 (v ⟨y.val * 8 + x.val, by have hy := y.isLt; have hx := x.isLt; omega⟩)),
    (base + y.val * pitch + x.val * 3 + 1,
     f32_to_u8 (v ⟨64 + y.val * 8 + x.val, by have hy := y.isLt; have hx := x.isLt; omega⟩)),
    (base + y.val * pitch + x.val * 3 + 2,
     f32_to_u8 (v ⟨128 + y.val * 8 + x.val, by have hy := y.isLt; have hx := x.isLt; omega⟩)) ]

/-- One row `y` of the `vec_to_block` write loop: the 8 pixels left to
right. -/
def block_row_writes (base pitch : ℕ) (v : Fin 192 → ℚ) (y : Fin 8) : List (ℕ × ℕ) :=
  (List.finRange 8).flatMap fun x => pixel_writes base pitch v y x

/-- Embedding of `vec_to_block` (src/nanostream.c:185-201): the ordered list
of byte writes `(address, value)` the C code performs for one block whose
top-left pixel sits at byte address `base`. -/
def vec_to_block_writes (base pitch : ℕ) (v : Fin 192 → ℚ) : List (ℕ × ℕ) :=
  (List.finRange 8).flatMap fun y => block_row_writes base pitch v y

section Basis

variable (nanostream_mean : Fin 192 → ℚ)
variable (nanostream_eigen_values : Fin 8 → Fin 192 → ℚ)

/-- Embedding of `to_eigen_values` (src/nanostream.c:55-66): accumulate, for
each eigen index `i`, the inner product of the mean-centered block vector
with basis vector `i`, in source loop order.  The constant basis is external
data (`extern const` in the source) passed as an argument. -/
def to_eigen_values (v : Fin 192 → ℚ) : Fin 8 → ℚ :=
  fun i => (List.finRange 192).foldl
    (fun s j => s + (v j - nanostream_mean j) * nanostream_eigen_values i j) 0

/-- Embedding of `eigen_values_to_block_vec` (src/nanostream.c:173-183):
reconstruct each of the 192 dimensions as the mean plus the 8-term expansion,
in source loop order. -/
def eigen_values_to_block_vec (ev : Fin 8 → ℚ) : Fin 192 → ℚ :=
  fun j => (List.finRange 8).foldl
    (fun x i => x + ev i * nanostream_eigen_values i j) (nanostream_mean j)

/-- Coefficient vector of block `b` of the tile (src/nanostream.c:151-157):
blocks are visited row-major over the 15 × 20 grid, and the C block pointer
for block `b` is `rgb + (b/20)·8·pitch + (b%20)·8·3`. -/
def tile_block_ev (rgb : ℕ → ℕ) (pitch : ℕ) (b : Fin 300) : Fin 8 → ℚ :=
  to_eigen_values nanostream_mean nanostream_eigen_values
    (block_to_vec (fun a => rgb ((b.val / 20) * 8 * pitch + (b.val % 20) * 8 * 3 + a)) pitch)

/-- TileRange minimum (src/nanostream.c:68-76 and 146-159): the C code seeds
`ev_min` with `INFINITY` and folds `fminf` over every block's coefficients;
over the 300 ≥ 1 blocks of the tile this equals the attained minimum, which
is how it is defined here (`ℚ` has no infinities). -/
def tile_ev_min (rgb : ℕ → ℕ) (pitch : ℕ) (i : Fin 8) : ℚ :=
  Finset.univ.inf' Finset.univ_nonempty
    (fun b : Fin 300 => tile_block_ev nanostream_mean nanostream_eigen_values rgb pitch b i)

/-- TileRange maximum, dually seeded with `-INFINITY` and folded with
`fmaxf`. -/
def tile_ev_max (rgb : ℕ → ℕ) (pitch : ℕ) (i : Fin 8) : ℚ :=
  Finset.univ.sup' Finset.univ_nonempty
    (fun b : Fin 300 => tile_block_ev nanostream_mean nanostream_eigen_values rgb pitch b i)

/-- Embedding of `nanostream_encode_tile` (src/nanostream.c:138-171): the
exact byte sequence the C code writes into the packet buffer: the 8 range
minima, then the 8 range maxima (4 header bytes per float, coefficient
order), then the 4 record bytes of each of the 300 blocks in row-major
order. -/
def nanostream_encode_tile (rgb : ℕ → ℕ) (pitch : ℕ) : List PByte :=
  ((List.finRange 8).flatMap fun i =>
    f32bytes (tile_ev_min nanostream_mean nanostream_eigen_values rgb pitch i)) ++
  ((List.finRange 8).flatMap fun i =>
    f32bytes (tile_ev_max nanostream_mean nanostream_eigen_values rgb pitch i)) ++
  ((List.finRange 300).flatMap fun b =>
    (List.finRange 4).map fun j =>
      PByte.q (quantize_eigen_values
        (tile_block_ev nanostream_mean nanostream_eigen_values rgb pitch b)
        (tile_ev_min nanostream_mean nanostream_eigen_values rgb pitch)
        (tile_ev_max nanostream_mean nanostream_eigen_values rgb pitch) j))

/-- One iteration of the decode block loop (src/nanostream.c:218-249): read
the 4 record bytes at the running packet pointer `st.1`, advance it by 4, and
append the pixel writes of the block at `(block_y, block_x) = blk`, whose
top-left pixel sits at `blk.1·8·pitch + blk.2·8·3`. -/
def decode_step (p : ℕ → PByte) (pitch : ℕ) (ev_min ev_max : Fin 8 → ℚ)
    (st : ℕ × List (ℕ × ℕ)) (blk : ℕ × ℕ) : ℕ × List (ℕ × ℕ) :=
  let ev := decode_block_ev ev_min ev_max
    (readQ p st.1) (readQ p (st.1 + 1)) (readQ p (st.1 + 2)) (readQ p (st.1 + 3))
  let v := eigen_values_to_block_vec nanostream_mean nanostream_eigen_values ev
  (st.1 + 4, st.2 ++ vec_to_block_writes (blk.1 * 8 * pitch + blk.2 * 8 * 3) pitch v)

/-- Specification device for the decode loop: the writes the loop emits for
the given block list when the packet pointer starts at `ptr`, consuming 4
record bytes per block. -/
def decode_chunks (p : ℕ → PByte) (pitch : ℕ) (ev_min ev_max : Fin 8 → ℚ) :
    ℕ → List (ℕ × ℕ) → List (ℕ × ℕ)
  | _, [] => []
  | ptr, blk :: tl =>
      vec_to_block_writes (blk.1 * 8 * pitch + blk.2 * 8 * 3) pitch
        (eigen_values_to_block_vec nanostream_mean nanostream_eigen_values
          (decode_block_ev ev_min ev_max
            (readQ p ptr) (readQ p (ptr + 1)) (readQ p (ptr + 2)) (readQ p (ptr + 3)))) ++
      decode_chunks p pitch ev_min ev_max (ptr + 4) tl

end Basis

/-- The row-major visit order of the 15 × 20 block loop
(src/nanostream.c:218-219). -/
def block_order : List (ℕ × ℕ) :=
  (List.range 15).flatMap fun block_y => (List.range 20).map fun block_x => (block_y, block_x)

/-- Embedding of `nanostream_decode_tile` (src/nanostream.c:203-251): read
the two 8-float range headers from bytes 0..63, then fold the block loop with
the packet pointer starting just past the 64 header bytes.  The result is the
ordered list of all byte writes into the output tile. -/
def nanostream_decode_tile (nanostream_mean : Fin 192 → ℚ)
    (nanostream_eigen_values : Fin 8 → Fin 192 → ℚ)
    (p : ℕ → PByte) (pitch : ℕ) : List (ℕ × ℕ) :=
  let ev_min := fun i : Fin 8 => readF32 p (4 * i.val)
  let ev_max := fun i : Fin 8 => readF32 p (32 + 4 * i.val)
  (block_order.foldl
    (decode_step nanostream_mean nanostream_eigen_values p pitch ev_min ev_max) (64, [])).2

/-- Embedding of `NANOSTREAM_PACKET_SIZE` (src/nanostream.h:7):
`1200 + 12·sizeof(float)·2`. -/
def NANOSTREAM_PACKET_SIZE : ℕ := 1200 + 12 * 4 * 2

/-- Outcome of one run of the evaluation driver: process exit code, whether
the tile-divisibility warning was printed, and the output path written. -/
structure CliOutcome where
  exitCode : ℕ
  warned : Bool
  outputPath : Option String
deriving DecidableEq

/-- Embedding of `main` (src/eval/main.cpp:49-83).  The image loader
`stbi_load` is an external collaborator, passed as a function from the input
path to `none` (unreadable file) or the loaded image size `(w, h)`;
`process_image` and `stbi_write_png` only touch pixel data, so the driver
surface is the exit code, the warning, and the chosen output path. -/
def cli_main (argv : List String) (load : String → Option (ℕ × ℕ)) : CliOutcome :=
  match argv with
  | [] => ⟨1, false, none⟩
  | [_] => ⟨1, false, none⟩
  | _ :: input :: rest =>
    let output := match rest with
      | [] => "result.png"
      | o :: _ => o
    match load input with
    | none => ⟨1, false, none⟩
    | some (w, h) => ⟨0, decide (¬ w % 160 = 0 ∨ ¬ h % 120 = 0), some output⟩

/-- Auxiliary: `round` is monotone on `ℚ`. -/
lemma round_mono_rat {a b : ℚ} (h : a ≤ b) : round a ≤ round b := by
  rw [round_eq, round_eq]
  exact Int.floor_le_floor (by linarith)

/-- Auxiliary: `quantize_f32` on a degenerate range (the guard
`!(denom > 0.0F)` fires) returns 0. -/
lemma quantize_f32_of_not_pos (x mn mx : ℚ) (L : ℤ) (hd : ¬ (mx - mn > 0)) :
    quantize_f32 x mn mx L = 0 := by
  unfold quantize_f32
  by_cases hL : L ≤ 0
  · rw [if_pos hL]
  · rw [if_neg hL]
    dsimp only
    rw [if_pos hd]

/-- Auxiliary: on the main path (`L > 0`, positive range) `quantize_f32` is the
clamped rounding of the clamped normalized position. -/
lemma quantize_f32_of_pos (x mn mx : ℚ) (L : ℤ) (hL : ¬ L ≤ 0) (hd : mx - mn > 0) :
    quantize_f32 x mn mx L =
      (let t0 := (x - mn) / (mx - mn)
       let t1 := if t0 < 0 then 0 else t0
       let t2 := if t1 > 1 then 1 else t1
       let q0 := round (t2 * (L : ℚ))
       let q1 := if q0 < 0 then 0 else q0
       if q1 > L then L else q1) := by
  unfold quantize_f32
  rw [if_neg hL]
  dsimp only
  rw [if_neg (not_not_intro hd)]

/-- Auxiliary: `dequantize_f32` with `L > 0` always evaluates to
`mn + qq·(1/L)·(mx − mn)` for some clamped code `qq ∈ [0, L]`. -/
lemma dequantize_f32_spec (q : ℤ) (mn mx : ℚ) (L : ℤ) (hL : ¬ L ≤ 0) :
    ∃ qq : ℤ, 0 ≤ qq ∧ qq ≤ L ∧
      dequantize_f32 q mn mx L = mn + ((qq : ℚ) * (1 / (L : ℚ))) * (mx - mn) := by
  unfold dequantize_f32
  rw [if_neg hL]
  dsimp only
  split_ifs with h1 h2 h3
  · exact ⟨L, by omega, le_rfl, rfl⟩
  · exact ⟨0, le_rfl, by omega, by norm_num⟩
  · exact ⟨L, by omega, le_rfl, rfl⟩
  · exact ⟨q, by omega, by omega, rfl⟩

/-- Auxiliary: `dequantize_f32` of a code already inside `[0, L]` (with
`L > 0`) applies no clamping. -/
lemma dequantize_f32_of_bounds (q : ℤ) (mn mx : ℚ) (L : ℤ) (hL : ¬ L ≤ 0)
    (h0 : 0 ≤ q) (h1 : q ≤ L) :
    dequantize_f32 q mn mx L = mn + ((q : ℚ) * (1 / (L : ℚ))) * (mx - mn) := by
  unfold dequantize_f32
  rw [if_neg hL]
  dsimp only
  rw [if_neg (by omega), if_neg (by omega)]

/-- C2: for a degenerate or inverted range (`max ≤ min`) the quantizer returns
code 0 for every value and level count, and dequantizing that code yields the
range minimum; both functions are total, so the degeneracy is never surfaced
as an error. -/
theorem degenerate_range_collapses (v mn mx : ℚ) (L : ℤ) (h : mx ≤ mn) :
    quantize_f32 v mn mx L = 0 ∧
    dequantize_f32 (quantize_f32 v mn mx L) mn mx L = mn := by
  have hq : quantize_f32 v mn mx L = 0 :=
    quantize_f32_of_not_pos v mn mx L (by linarith)
  refine ⟨hq, ?_⟩
  rw [hq]
  by_cases hL : L ≤ 0
  · unfold dequantize_f32
    rw [if_pos hL]
  · rw [dequantize_f32_of_bounds 0 mn mx L hL le_rfl (by omega)]
    push_cast
    ring

/-- Witness for C2 at `v = 5`, `min = max = 1`, `L = 3`. -/
theorem degenerate_range_collapses_witness :
    quantize_f32 5 1 1 3 = 0 ∧ dequantize_f32 (quantize_f32 5 1 1 3) 1 1 3 = 1 :=
  degenerate_range_collapses 5 1 1 3 le_rfl

/-- C10: `quantize_f32` and `dequantize_f32` are total with no precondition:
for every input in the model the code lands in `[0, max res 0]` (the guards
make the division safe), and dequantization clamps the code so the result
always lies in the closed interval spanned by `min_x` and `max_x`. -/
theorem quantize_dequantize_total_safe (x mn mx : ℚ) (L q : ℤ) :
    (0 ≤ quantize_f32 x mn mx L ∧ quantize_f32 x mn mx L ≤ max L 0) ∧
    (min mn mx ≤ dequantize_f32 q mn mx L ∧ dequantize_f32 q mn mx L ≤ max mn mx) := by
  refine ⟨⟨?_, ?_⟩, ?_⟩
  · unfold quantize_f32
    dsimp only
    split_ifs <;> omega
  · unfold quantize_f32
    dsimp only
    have hmax : L ≤ max L 0 := le_max_left _ _
    have hmax0 : (0 : ℤ) ≤ max L 0 := le_max_right _ _
    split_ifs <;> omega
  · by_cases hL : L ≤ 0
    · have : dequantize_f32 q mn mx L = mn := by
        unfold dequantize_f32
        rw [if_pos hL]
      rw [this]
      exact ⟨min_le_left _ _, le_max_left _ _⟩
    · obtain ⟨qq, hq0, hqL, heq⟩ := dequantize_f32_spec q mn mx L hL
      rw [heq]
      have hLQ : (0 : ℚ) < (L : ℚ) := by exact_mod_cast (by omega : (0 : ℤ) < L)
      set t : ℚ := (qq : ℚ) * (1 / (L : ℚ)) with hT
      have ht0 : 0 ≤ t := by
        apply mul_nonneg (by exact_mod_cast hq0)
        positivity
      have ht1 : t ≤ 1 := by
        rw [hT, mul_one_div, div_le_one hLQ]
        exact_mod_cast hqL
      rcases le_total mn mx with hc | hc
      · constructor
        · calc min mn mx ≤ mn := min_le_left _ _
            _ ≤ mn + t * (mx - mn) := by nlinarith
        · calc mn + t * (mx - mn) ≤ mn + 1 * (mx - mn) := by nlinarith
            _ = mx := by ring
            _ ≤ max mn mx := le_max_right _ _
      · constructor
        · calc min mn mx ≤ mx := min_le_right _ _
            _ = mn + 1 * (mx - mn) := by ring
            _ ≤ mn + t * (mx - mn) := by nlinarith
        · calc mn + t * (mx - mn) ≤ mn + 0 * (mx - mn) := by nlinarith
            _ = mn := by ring
            _ ≤ max mn mx := le_max_left _ _

/-- C1: quantizer range law.  For `min ≤ v ≤ max` and `L > 0`, dequantizing the
quantization of `v` is within `(max − min)/L` of `v`. -/
theorem quantize_dequantize_range_law (v mn mx : ℚ) (L : ℤ)
    (hmn : mn ≤ v) (hmx : v ≤ mx) (hL : 0 < L) :
    |dequantize_f32 (quantize_f32 v mn mx L) mn mx L - v| ≤ (mx - mn) / (L : ℚ) := by
  have hL' : ¬ L ≤ 0 := by omega
  have hLQ : (0 : ℚ) < (L : ℚ) := by exact_mod_cast hL
  by_cases hd : mx - mn > 0
  · -- main path
    set t0 : ℚ := (v - mn) / (mx - mn) with hT0
    have ht0 : 0 ≤ t0 := div_nonneg (by linarith) (by linarith)
    have ht1 : t0 ≤ 1 := by
      rw [hT0, div_le_one hd]
      linarith
    have hr0 : (0 : ℤ) ≤ round (t0 * (L : ℚ)) := by
      have := round_mono_rat (mul_nonneg ht0 (le_of_lt hLQ))
      rwa [round_zero] at this
    have hrL : round (t0 * (L : ℚ)) ≤ L := by
      have h1 : t0 * (L : ℚ) ≤ (L : ℚ) := by nlinarith
      have := round_mono_rat h1
      rwa [round_intCast] at this
    have hc1 : ¬ (t0 < 0) := not_lt.mpr ht0
    have hc2 : ¬ (t0 > 1) := not_lt.mpr ht1
    have hc3 : ¬ (round (t0 * (L : ℚ)) < 0) := not_lt.mpr hr0
    have hc4 : ¬ (round (t0 * (L : ℚ)) > L) := not_lt.mpr hrL
    have hq : quantize_f32 v mn mx L = round (t0 * (L : ℚ)) := by
      rw [quantize_f32_of_pos v mn mx L hL' hd]
      dsimp only
      rw [← hT0, if_neg hc1, if_neg hc2, if_neg hc3, if_neg hc4]
    rw [hq, dequantize_f32_of_bounds _ mn mx L hL' hr0 hrL]
    set r : ℚ := (round (t0 * (L : ℚ)) : ℚ) with hR
    have hv : v = mn + t0 * (mx - mn) := by
      rw [hT0]
      field_simp
    have habs : |t0 * (L : ℚ) - r| ≤ 1 / 2 := abs_sub_round (t0 * (L : ℚ))
    have hkey : mn + r * (1 / (L : ℚ)) * (mx - mn) - v =
        ((r - t0 * (L : ℚ)) / (L : ℚ)) * (mx - mn) := by
      rw [hv]
      field_simp
      ring
    rw [hkey, abs_mul, abs_div, abs_of_pos hLQ, abs_of_pos hd]
    have h12 : |r - t0 * (L : ℚ)| ≤ 1 / 2 := by
      rw [abs_sub_comm]
      exact habs
    calc |r - t0 * (L : ℚ)| / (L : ℚ) * (mx - mn)
        ≤ (1 / 2) / (L : ℚ) * (mx - mn) := by
          apply mul_le_mul_of_nonneg_right _ (by linarith)
          exact (div_le_div_iff_of_pos_right hLQ).mpr h12
      _ ≤ (mx - mn) / (L : ℚ) := by
          rw [div_mul_eq_mul_div, div_le_div_iff₀ hLQ hLQ]
          nlinarith
  · -- degenerate range: min = v = max, both sides are zero
    have hmxmn : mx = mn := le_antisymm (by linarith) (by linarith)
    have hvmn : v = mn := le_antisymm (by rw [← hmxmn]; exact hmx) hmn
    have hq : quantize_f32 v mn mx L = 0 := quantize_f32_of_not_pos v mn mx L hd
    rw [hq, dequantize_f32_of_bounds 0 mn mx L hL' le_rfl (by omega)]
    rw [hmxmn, hvmn]
    simp

/-- Witness for C1 at `v = 1/2`, `min = 0`, `max = 1`, `L = 4`. -/
theorem quantize_dequantize_range_law_witness :
    |dequantize_f32 (quantize_f32 (1 / 2) 0 1 4) 0 1 4 - 1 / 2| ≤ (1 - 0) / (4 : ℚ) :=
  quantize_dequantize_range_law (1 / 2) 0 1 4 (by norm_num) (by norm_num) (by norm_num)

set_option maxRecDepth 100000 in
/-- Auxiliary: an 8-bit code survives the byte-0/1 lane. -/
lemma pack_lane8 : ∀ a : Fin 256, (a.val &&& 0xFF) % 256 = a.val := by decide

set_option maxRecDepth 100000 in
/-- Auxiliary: two 4-bit codes survive the byte-2 lane. -/
lemma pack_lane4 : ∀ a b : Fin 16,
    (((((a.val &&& 0x0F) <<< 4) ||| (b.val &&& 0x0F)) % 256) >>> 4) &&& 0x0F = a.val ∧
    ((((a.val &&& 0x0F) <<< 4) ||| (b.val &&& 0x0F)) % 256) &&& 0x0F = b.val := by decide

set_option maxRecDepth 100000 in
/-- Auxiliary: four 2-bit codes survive the byte-3 lane. -/
lemma pack_lane2 : ∀ a b c d : Fin 4,
    (((a.val &&& 0x03) ||| ((b.val &&& 0x03) <<< 2) ||| ((c.val &&& 0x03) <<< 4) ||| ((d.val &&& 0x03) <<< 6)) % 256) &&& 0x03 = a.val ∧
    ((((a.val &&& 0x03) ||| ((b.val &&& 0x03) <<< 2) ||| ((c.val &&& 0x03) <<< 4) ||| ((d.val &&& 0x03) <<< 6)) % 256) >>> 2) &&& 0x03 = b.val ∧
    ((((a.val &&& 0x03) ||| ((b.val &&& 0x03) <<< 2) ||| ((c.val &&& 0x03) <<< 4) ||| ((d.val &&& 0x03) <<< 6)) % 256) >>> 4) &&& 0x03 = c.val ∧
    ((((a.val &&& 0x03) ||| ((b.val &&& 0x03) <<< 2) ||| ((c.val &&& 0x03) <<< 4) ||| ((d.val &&& 0x03) <<< 6)) % 256) >>> 6) &&& 0x03 = d.val := by decide

/-- C3: packing any 8 in-range codes with the 8/8/4/4/2/2/2/2 scheme and
unpacking with the decoder's bit extraction returns the identical codes. -/
theorem pack_unpack_roundtrip (q0 q1 q2 q3 q4 q5 q6 q7 : ℕ)
    (h0 : q0 < 256) (h1 : q1 < 256) (h2 : q2 < 16) (h3 : q3 < 16)
    (h4 : q4 < 4) (h5 : q5 < 4) (h6 : q6 < 4) (h7 : q7 < 4) :
    (fun b => unpack_codes b.1 b.2.1 b.2.2.1 b.2.2.2) (pack_codes q0 q1 q2 q3 q4 q5 q6 q7) =
      (q0, q1, q2, q3, q4, q5, q6, q7) := by
  obtain ⟨e2, e3⟩ := pack_lane4 ⟨q2, h2⟩ ⟨q3, h3⟩
  obtain ⟨e4, e5, e6, e7⟩ := pack_lane2 ⟨q4, h4⟩ ⟨q5, h5⟩ ⟨q6, h6⟩ ⟨q7, h7⟩
  simp only [pack_codes, unpack_codes]
  exact congrArg₂ Prod.mk (pack_lane8 ⟨q0, h0⟩) (congrArg₂ Prod.mk (pack_lane8 ⟨q1, h1⟩)
    (congrArg₂ Prod.mk e2 (congrArg₂ Prod.mk e3 (congrArg₂ Prod.mk e4
      (congrArg₂ Prod.mk e5 (congrArg₂ Prod.mk e6 e7))))))

/-- Witness for C3 at the spec's example codes `[5,200,3,12,1,2,3,0]`. -/
theorem pack_unpack_roundtrip_witness :
    (fun b => unpack_codes b.1 b.2.1 b.2.2.1 b.2.2.2) (pack_codes 5 200 3 12 1 2 3 0) =
      (5, 200, 3, 12, 1, 2, 3, 0) :=
  pack_unpack_roundtrip 5 200 3 12 1 2 3 0 (by norm_num) (by norm_num) (by norm_num)
    (by norm_num) (by norm_num) (by norm_num) (by norm_num) (by norm_num)

/-- Auxiliary: a left fold that only accumulates additions equals the initial
value plus the mapped sum. -/
lemma foldl_add_map {A : Type} (f : A → ℚ) :
    ∀ (l : List A) (s : ℚ), l.foldl (fun a j => a + f j) s = s + (l.map f).sum := by
  intro l
  induction l with
  | nil => intro s; simp
  | cons a tl ih =>
    intro s
    simp only [List.foldl_cons, List.map_cons, List.sum_cons, ih (s + f a)]
    ring

/-- C6: the forward eigen projection computes each coefficient as the inner
product of the mean-centered block vector with the corresponding basis
vector over all 192 dimensions, and the inverse reconstructs each dimension
as the mean plus the 8-term expansion. -/
theorem eigen_projection_formulas (M : Fin 192 → ℚ) (E : Fin 8 → Fin 192 → ℚ)
    (v : Fin 192 → ℚ) (ev : Fin 8 → ℚ) (i : Fin 8) (j : Fin 192) :
    to_eigen_values M E v i = ∑ j2 : Fin 192, (v j2 - M j2) * E i j2 ∧
    eigen_values_to_block_vec M E ev j = M j + ∑ i2 : Fin 8, ev i2 * E i2 j := by
  constructor
  · show (List.finRange 192).foldl (fun s j2 => s + (v j2 - M j2) * E i j2) 0 = _
    rw [foldl_add_map (fun j2 => (v j2 - M j2) * E i j2), Fin.sum_univ_def, zero_add]
  · show (List.finRange 8).foldl (fun x i2 => x + ev i2 * E i2 j) (M j) = _
    rw [foldl_add_map (fun i2 => ev i2 * E i2 j), Fin.sum_univ_def]

/-- Auxiliary: over the nonempty block index set the minimum is below the
maximum. -/
lemma fin300_inf'_le_sup' (F : Fin 300 → ℚ) :
    Finset.univ.inf' Finset.univ_nonempty F ≤ Finset.univ.sup' Finset.univ_nonempty F :=
  le_trans (Finset.inf'_le F (Finset.mem_univ (0 : Fin 300)))
    (Finset.le_sup' F (Finset.mem_univ (0 : Fin 300)))

/-- Auxiliary: the folded minimum over the block index set is attained. -/
lemma fin300_inf'_attained (F : Fin 300 → ℚ) :
    ∃ b : Fin 300, Finset.univ.inf' Finset.univ_nonempty F = F b := by
  obtain ⟨b, _, hb⟩ := Finset.exists_mem_eq_inf' (Finset.univ_nonempty) F
  exact ⟨b, hb⟩

/-- Auxiliary: the folded maximum over the block index set is attained. -/
lemma fin300_sup'_attained (F : Fin 300 → ℚ) :
    ∃ b : Fin 300, Finset.univ.sup' Finset.univ_nonempty F = F b := by
  obtain ⟨b, _, hb⟩ := Finset.exists_mem_eq_sup' (Finset.univ_nonempty) F
  exact ⟨b, hb⟩

/-- C9: the TileRange header the encoder serializes is well ordered, with
each bound an attained coefficient value: `min[i] ≤ max[i]`, and both equal
some block's `i`-th coefficient. -/
theorem tile_range_sound (M : Fin 192 → ℚ) (E : Fin 8 → Fin 192 → ℚ)
    (rgb : ℕ → ℕ) (pitch : ℕ) (i : Fin 8) :
    tile_ev_min M E rgb pitch i ≤ tile_ev_max M E rgb pitch i ∧
    (∃ b : Fin 300, tile_ev_min M E rgb pitch i = tile_block_ev M E rgb pitch b i) ∧
    (∃ b : Fin 300, tile_ev_max M E rgb pitch i = tile_block_ev M E rgb pitch b i) := by
  unfold tile_ev_min tile_ev_max
  exact ⟨fin300_inf'_le_sup' _, fin300_inf'_attained _, fin300_sup'_attained _⟩

/-- Auxiliary: indexing into a `flatMap` whose chunks all have length `N`
picks element `m` of chunk `k`. -/
lemma flatMap_chunk_getElem {A B : Type} (f : A → List B) (N : ℕ)
    (hN : ∀ a, (f a).length = N) :
    ∀ (l : List A) (k m : ℕ) (hk : k < l.length), m < N →
      (l.flatMap f)[N * k + m]? = (f (l.get ⟨k, hk⟩))[m]? := by
  intro l
  induction l with
  | nil => intro k m hk hm; simp at hk
  | cons a tl ih =>
    intro k m hk hm
    cases k with
    | zero =>
      rw [List.flatMap_cons, show N * 0 + m = m by ring]
      rw [List.getElem?_append_left (by rw [hN a]; exact hm)]
      rfl
    | succ k2 =>
      rw [List.flatMap_cons, show N * (k2 + 1) + m = N + (N * k2 + m) by ring]
      rw [List.getElem?_append_right (by rw [hN a]; exact Nat.le_add_right N _)]
      rw [hN a, Nat.add_sub_cancel_left]
      rw [ih k2 m (by simp only [List.length_cons] at hk; omega) hm]
      rfl

/-- Auxiliary: each pixel contributes 3 writes. -/
lemma pixel_writes_length (base pitch : ℕ) (v : Fin 192 → ℚ) (y x : Fin 8) :
    (pixel_writes base pitch v y x).length = 3 := rfl

/-- Auxiliary: each block row contributes 24 writes. -/
lemma block_row_writes_length (base pitch : ℕ) (v : Fin 192 → ℚ) (y : Fin 8) :
    (block_row_writes base pitch v y).length = 24 := rfl

/-- Auxiliary: one block contributes 192 writes. -/
lemma vec_to_block_writes_length (base pitch : ℕ) (v : Fin 192 → ℚ) :
    (vec_to_block_writes base pitch v).length = 192 := rfl

/-- Auxiliary: the write of channel `c` of pixel `(y, x)` is entry
`24·y + 3·x + c` of the block write list, hits address
`base + y·pitch + x·3 + c`, and stores the converted sample of plane `c`. -/
lemma vec_to_block_writes_entry (base pitch : ℕ) (v : Fin 192 → ℚ) (y x : Fin 8) (c : Fin 3) :
    (vec_to_block_writes base pitch v)[24 * y.val + 3 * x.val + c.val]? =
      some (base + y.val * pitch + x.val * 3 + c.val,
        f32_to_u8 (v ⟨c.val * 64 + y.val * 8 + x.val,
          by have hy := y.isLt; have hx := x.isLt; have hc := c.isLt; omega⟩)) := by
  rw [show 24 * y.val + 3 * x.val + c.val = 24 * y.val + (3 * x.val + c.val) by ring]
  rw [vec_to_block_writes,
    flatMap_chunk_getElem _ 24 (fun a => block_row_writes_length base pitch v a)
      (List.finRange 8) y.val (3 * x.val + c.val)
      (by simp) (by have := x.isLt; have := c.isLt; omega)]
  rw [List.get_finRange]
  rw [block_row_writes,
    flatMap_chunk_getElem _ 3 (fun a => pixel_writes_length base pitch v _ a)
      (List.finRange 8) x.val c.val (by simp) c.isLt]
  rw [List.get_finRange]
  have hy : (⟨y.val, by simp⟩ : Fin 8) = y := rfl
  have hx : (⟨x.val, by simp⟩ : Fin 8) = x := rfl
  rw [hy, hx]
  fin_cases c
  · simp [pixel_writes]
  · simp [pixel_writes]
  · simp [pixel_writes]

/-- Auxiliary: one 8-bit sample survives the forward and inverse scaling
exactly (`round(s/255·255) = s`). -/
lemma u8_sample_roundtrip (s : ℕ) (h : s ≤ 255) : f32_to_u8 (u8_to_f32 s) = s := by
  unfold f32_to_u8 u8_to_f32
  dsimp only
  have h0 : ¬ ((s : ℚ) * (1 / 255) < 0) := not_lt.mpr (by positivity)
  have h1 : ¬ ((s : ℚ) * (1 / 255) > 1) := by
    rw [not_lt, mul_one_div, div_le_one (by norm_num)]
    exact_mod_cast h
  rw [if_neg h0, if_neg h1]
  have hmul : (s : ℚ) * (1 / 255) * 255 = (s : ℚ) := by
    field_simp
  rw [hmul, round_natCast]
  rw [if_neg (show ¬ ((s : ℤ) < 0) by omega)]
  rw [if_neg (show ¬ ((s : ℤ) > 255) by omega)]
  exact Int.toNat_natCast s

/-- Auxiliary: slot `c·64 + y·8 + x` of the forward block transform is the
scaled sample at address `y·pitch + x·3 + c`. -/
lemma block_to_vec_apply (p : ℕ → ℕ) (pitch : ℕ) (y x : Fin 8) (c : Fin 3)
    (hlt : c.val * 64 + y.val * 8 + x.val < 192) :
    block_to_vec p pitch ⟨c.val * 64 + y.val * 8 + x.val, hlt⟩ =
      u8_to_f32 (p (y.val * pitch + x.val * 3 + c.val)) := by
  unfold block_to_vec
  dsimp only
  have hy := y.isLt
  have hx := x.isLt
  have hc := c.isLt
  have h1 : (c.val * 64 + y.val * 8 + x.val) / 64 = c.val := by omega
  have h2 : (c.val * 64 + y.val * 8 + x.val) % 64 / 8 = y.val := by omega
  have h3 : (c.val * 64 + y.val * 8 + x.val) % 8 = x.val := by omega
  rw [h1, h2, h3]

/-- C7: Block Transform round trip.  For an 8-bit block (every sample at
most 255), applying the forward map and then the inverse map reproduces
every channel sample within ±1 level (here: exactly): the write for channel
`c` of pixel `(y, x)` targets the address the sample was read from and its
value differs from the original sample by at most 1. -/
theorem block_transform_roundtrip (p : ℕ → ℕ) (pitch : ℕ) (y x : Fin 8) (c : Fin 3)
    (h : p (y.val * pitch + x.val * 3 + c.val) ≤ 255) :
    ∃ w : ℕ,
      (vec_to_block_writes 0 pitch (block_to_vec p pitch))[24 * y.val + 3 * x.val + c.val]? =
        some (y.val * pitch + x.val * 3 + c.val, w) ∧
      ((w : ℤ) - (p (y.val * pitch + x.val * 3 + c.val) : ℤ)).natAbs ≤ 1 := by
  refine ⟨p (y.val * pitch + x.val * 3 + c.val), ?_, by simp⟩
  rw [vec_to_block_writes_entry 0 pitch (block_to_vec p pitch) y x c]
  rw [block_to_vec_apply p pitch y x c]
  rw [u8_sample_roundtrip _ h]
  rw [Nat.zero_add]

/-- Witness for C7 at a constant-7 image, pixel `(y,x) = (2,3)`, channel 1,
`pitch = 480`. -/
theorem block_transform_roundtrip_witness :
    ∃ w : ℕ,
      (vec_to_block_writes 0 480 (block_to_vec (fun _ => 7) 480))[24 * 2 + 3 * 3 + 1]? =
        some (2 * 480 + 3 * 3 + 1, w) ∧
      ((w : ℤ) - ((7 : ℕ) : ℤ)).natAbs ≤ 1 :=
  block_transform_roundtrip (fun _ => 7) 480 2 3 1 (by norm_num)

/-- Auxiliary: the decode block loop folded from state `(ptr, ws)` advances
the packet pointer by 4 per block and appends exactly the chunk writes. -/
lemma decode_foldl_spec (M : Fin 192 → ℚ) (E : Fin 8 → Fin 192 → ℚ) (p : ℕ → PByte)
    (pitch : ℕ) (mn mx : Fin 8 → ℚ) :
    ∀ (l : List (ℕ × ℕ)) (ptr : ℕ) (ws : List (ℕ × ℕ)),
      l.foldl (decode_step M E p pitch mn mx) (ptr, ws) =
        (ptr + 4 * l.length, ws ++ decode_chunks M E p pitch mn mx ptr l) := by
  intro l
  induction l with
  | nil => intro ptr ws; simp [decode_chunks]
  | cons blk tl ih =>
    intro ptr ws
    rw [List.foldl_cons]
    have hstep : decode_step M E p pitch mn mx (ptr, ws) blk =
        (ptr + 4, ws ++ vec_to_block_writes (blk.1 * 8 * pitch + blk.2 * 8 * 3) pitch
          (eigen_values_to_block_vec M E (decode_block_ev mn mx
            (readQ p ptr) (readQ p (ptr + 1)) (readQ p (ptr + 2)) (readQ p (ptr + 3))))) := rfl
    rw [hstep, ih]
    simp only [decode_chunks, List.length_cons]
    exact Prod.ext (by omega) (List.append_assoc _ _ _)

/-- Auxiliary: the decoder is the chunk list starting at packet pointer 64,
with the ranges read from the header bytes. -/
lemma nanostream_decode_tile_eq (M : Fin 192 → ℚ) (E : Fin 8 → Fin 192 → ℚ)
    (p : ℕ → PByte) (pitch : ℕ) :
    nanostream_decode_tile M E p pitch =
      decode_chunks M E p pitch (fun i => readF32 p (4 * i.val))
        (fun i => readF32 p (32 + 4 * i.val)) 64 block_order := by
  unfold nanostream_decode_tile
  dsimp only
  rw [decode_foldl_spec]
  exact List.nil_append _

/-- Auxiliary: indexing into the decode chunk list selects chunk `k`, whose
record bytes sit at `ptr + 4·k`. -/
lemma decode_chunks_getElem (M : Fin 192 → ℚ) (E : Fin 8 → Fin 192 → ℚ) (p : ℕ → PByte)
    (pitch : ℕ) (mn mx : Fin 8 → ℚ) :
    ∀ (l : List (ℕ × ℕ)) (ptr k m : ℕ) (hk : k < l.length), m < 192 →
      (decode_chunks M E p pitch mn mx ptr l)[192 * k + m]? =
        (vec_to_block_writes ((l.get ⟨k, hk⟩).1 * 8 * pitch + (l.get ⟨k, hk⟩).2 * 8 * 3) pitch
          (eigen_values_to_block_vec M E (decode_block_ev mn mx
            (readQ p (ptr + 4 * k)) (readQ p (ptr + 4 * k + 1))
            (readQ p (ptr + 4 * k + 2)) (readQ p (ptr + 4 * k + 3)))))[m]? := by
  intro l
  induction l with
  | nil => intro ptr k m hk hm; simp at hk
  | cons blk tl ih =>
    intro ptr k m hk hm
    cases k with
    | zero =>
      simp only [decode_chunks]
      rw [show 192 * 0 + m = m by ring]
      rw [List.getElem?_append_left (by rw [vec_to_block_writes_length]; exact hm)]
      norm_num
    | succ k2 =>
      simp only [decode_chunks]
      rw [show 192 * (k2 + 1) + m = 192 + (192 * k2 + m) by ring]
      rw [List.getElem?_append_right (by rw [vec_to_block_writes_length]; exact Nat.le_add_right _ _)]
      rw [vec_to_block_writes_length, Nat.add_sub_cancel_left]
      rw [ih (ptr + 4) k2 m (by simp only [List.length_cons] at hk; omega) hm]
      have e1 : ptr + 4 + 4 * k2 = ptr + 4 * (k2 + 1) := by ring
      rw [e1]
      rfl

/-- Auxiliary: the block loop visits 300 blocks. -/
lemma block_order_length : block_order.length = 300 := rfl

/-- Auxiliary: the `k`-th visited block of the row-major loop is
`(k / 20, k % 20)`. -/
lemma block_order_get : ∀ k : Fin 300,
    block_order.get ⟨k.val, by rw [block_order_length]; exact k.isLt⟩ =
      (k.val / 20, k.val % 20) := by decide

/-- Auxiliary: one serialized float occupies four bytes. -/
lemma f32bytes_length (x : ℚ) : (f32bytes x).length = 4 := rfl

/-- Auxiliary: the four header bytes of one float. -/
lemma f32bytes_getElem (x : ℚ) (k : Fin 4) : (f32bytes x)[k.val]? = some (PByte.f x k) := by
  fin_cases k <;> rfl

/-- Auxiliary: byte `4·i + k` of an 8-float header segment is byte `k` of
float `i`. -/
lemma header_flatMap_getElem (g : Fin 8 → ℚ) (i : Fin 8) (k : Fin 4) :
    ((List.finRange 8).flatMap fun i2 => f32bytes (g i2))[4 * i.val + k.val]? =
      some (PByte.f (g i) k) := by
  rw [flatMap_chunk_getElem (fun i2 => f32bytes (g i2)) 4 (fun a => f32bytes_length (g a))
    (List.finRange 8) i.val k.val (by simp) k.isLt]
  rw [List.get_finRange]
  have hi : (⟨i.val, by simp⟩ : Fin 8) = i := rfl
  rw [hi]
  exact f32bytes_getElem (g i) k

/-- Auxiliary: byte `4·b + j` of the record segment is byte `j` of record
`b`. -/
lemma records_getElem (R : Fin 300 → Fin 4 → ℕ) (b : Fin 300) (j : Fin 4) :
    ((List.finRange 300).flatMap fun b2 =>
        (List.finRange 4).map fun j2 => PByte.q (R b2 j2))[4 * b.val + j.val]? =
      some (PByte.q (R b j)) := by
  rw [flatMap_chunk_getElem (fun b2 => (List.finRange 4).map fun j2 => PByte.q (R b2 j2)) 4
    (fun a => by simp) (List.finRange 300) b.val j.val (by simp) j.isLt]
  rw [List.get_finRange]
  have hb : (⟨b.val, by simp⟩ : Fin 300) = b := rfl
  rw [hb]
  fin_cases j <;> rfl

/-- C5: packet layout.  Encoding: bytes `4i+k` hold byte `k` of `min[i]`,
bytes `32+4i+k` hold byte `k` of `max[i]`, and bytes `64+4b+j` hold byte `j`
of the quantized record of row-major block `b`.  Decoding any packet: write
number `192·k + 24·y + 3·x + c` targets channel `c` of pixel `(y,x)` of the
row-major block `k` (at rows `(k/20)·8 + y`, columns `(k%20)·8 + x`), with
the value reconstructed from the header ranges at bytes 0..63 and the record
at bytes `64+4k..64+4k+3`. -/
theorem packet_layout (M : Fin 192 → ℚ) (E : Fin 8 → Fin 192 → ℚ) :
    (∀ (rgb : ℕ → ℕ) (pitch : ℕ) (i : Fin 8) (k : Fin 4),
      (nanostream_encode_tile M E rgb pitch)[4 * i.val + k.val]? =
        some (PByte.f (tile_ev_min M E rgb pitch i) k) ∧
      (nanostream_encode_tile M E rgb pitch)[32 + (4 * i.val + k.val)]? =
        some (PByte.f (tile_ev_max M E rgb pitch i) k)) ∧
    (∀ (rgb : ℕ → ℕ) (pitch : ℕ) (b : Fin 300) (j : Fin 4),
      (nanostream_encode_tile M E rgb pitch)[64 + (4 * b.val + j.val)]? =
        some (PByte.q (quantize_eigen_values (tile_block_ev M E rgb pitch b)
          (tile_ev_min M E rgb pitch) (tile_ev_max M E rgb pitch) j))) ∧
    (∀ (p : ℕ → PByte) (pitch : ℕ) (k : Fin 300) (y x : Fin 8) (c : Fin 3),
      (nanostream_decode_tile M E p pitch)[192 * k.val + (24 * y.val + 3 * x.val + c.val)]? =
        some ((k.val / 20) * 8 * pitch + (k.val % 20) * 8 * 3 +
                y.val * pitch + x.val * 3 + c.val,
          f32_to_u8 (eigen_values_to_block_vec M E
            (decode_block_ev (fun i => readF32 p (4 * i.val))
              (fun i => readF32 p (32 + 4 * i.val))
              (readQ p (64 + 4 * k.val)) (readQ p (64 + 4 * k.val + 1))
              (readQ p (64 + 4 * k.val + 2)) (readQ p (64 + 4 * k.val + 3)))
            ⟨c.val * 64 + y.val * 8 + x.val,
              by have := y.isLt; have := x.isLt; have := c.isLt; omega⟩))) := by
  refine ⟨?_, ?_, ?_⟩
  · intro rgb pitch i k
    unfold nanostream_encode_tile
    set A := (List.finRange 8).flatMap
      (fun i2 => f32bytes (tile_ev_min M E rgb pitch i2)) with hA
    set B := (List.finRange 8).flatMap
      (fun i2 => f32bytes (tile_ev_max M E rgb pitch i2)) with hB
    have hAl : A.length = 32 := rfl
    have hBl : B.length = 32 := rfl
    have hik : 4 * i.val + k.val < 32 := by have := i.isLt; have := k.isLt; omega
    constructor
    · rw [List.getElem?_append_left (by rw [List.length_append, hAl, hBl]; omega)]
      rw [List.getElem?_append_left (by rw [hAl]; omega)]
      rw [hA]
      exact header_flatMap_getElem (tile_ev_min M E rgb pitch) i k
    · rw [List.getElem?_append_left (by rw [List.length_append, hAl, hBl]; omega)]
      rw [List.getElem?_append_right (by rw [hAl]; omega)]
      rw [hAl, Nat.add_sub_cancel_left, hB]
      exact header_flatMap_getElem (tile_ev_max M E rgb pitch) i k
  · intro rgb pitch b j
    unfold nanostream_encode_tile
    set A := (List.finRange 8).flatMap
      (fun i2 => f32bytes (tile_ev_min M E rgb pitch i2)) with hA
    set B := (List.finRange 8).flatMap
      (fun i2 => f32bytes (tile_ev_max M E rgb pitch i2)) with hB
    have hABl : (A ++ B).length = 64 := rfl
    rw [List.getElem?_append_right (by rw [hABl]; omega)]
    rw [hABl, Nat.add_sub_cancel_left]
    exact records_getElem
      (fun b2 j2 => quantize_eigen_values (tile_block_ev M E rgb pitch b2)
        (tile_ev_min M E rgb pitch) (tile_ev_max M E rgb pitch) j2) b j
  · intro p pitch k y x c
    rw [nanostream_decode_tile_eq]
    rw [decode_chunks_getElem M E p pitch _ _ block_order 64 k.val
      (24 * y.val + 3 * x.val + c.val)
      (by rw [block_order_length]; exact k.isLt)
      (by have := y.isLt; have := x.isLt; have := c.isLt; omega)]
    rw [block_order_get k]
    exact vec_to_block_writes_entry _ pitch _ y x c

/-- Auxiliary: the decode chunk list only reads record bytes in
`[ptr, ptr + 4·len)`. -/
lemma decode_chunks_congr (M : Fin 192 → ℚ) (E : Fin 8 → Fin 192 → ℚ) (pitch : ℕ)
    (p1 p2 : ℕ → PByte) (mn mx : Fin 8 → ℚ) :
    ∀ (l : List (ℕ × ℕ)) (ptr : ℕ),
      (∀ a, ptr ≤ a → a < ptr + 4 * l.length → p1 a = p2 a) →
      decode_chunks M E p1 pitch mn mx ptr l = decode_chunks M E p2 pitch mn mx ptr l := by
  intro l
  induction l with
  | nil => intro ptr h; rfl
  | cons blk tl ih =>
    intro ptr h
    have hlen : (4 : ℕ) ≤ 4 * (blk :: tl).length := by
      simp only [List.length_cons]; omega
    have r0 : readQ p1 ptr = readQ p2 ptr := by
      unfold readQ; rw [h ptr le_rfl (by omega)]
    have r1 : readQ p1 (ptr + 1) = readQ p2 (ptr + 1) := by
      unfold readQ; rw [h (ptr + 1) (by omega) (by omega)]
    have r2 : readQ p1 (ptr + 2) = readQ p2 (ptr + 2) := by
      unfold readQ; rw [h (ptr + 2) (by omega) (by omega)]
    have r3 : readQ p1 (ptr + 3) = readQ p2 (ptr + 3) := by
      unfold readQ; rw [h (ptr + 3) (by omega) (by omega)]
    simp only [decode_chunks]
    rw [r0, r1, r2, r3, ih (ptr + 4) (fun a ha hb => h a (by omega)
      (by simp only [List.length_cons]; omega))]

/-- C4 (amended): for every tile the encoder writes exactly
`64 + 4·300 = 1264` bytes and nothing beyond; the decoder reads only within
that 1264-byte extent; but the header constant `NANOSTREAM_PACKET_SIZE`
equals `1200 + 12·4·2 = 1296`, which does not match the actual payload. -/
theorem packet_size_corrected (M : Fin 192 → ℚ) (E : Fin 8 → Fin 192 → ℚ)
    (rgb : ℕ → ℕ) (pitch : ℕ) :
    (nanostream_encode_tile M E rgb pitch).length = 64 + 4 * 300 ∧
    (∀ (p1 p2 : ℕ → PByte) (pd : ℕ),
      (∀ a, a < 1264 → p1 a = p2 a) →
      nanostream_decode_tile M E p1 pd = nanostream_decode_tile M E p2 pd) ∧
    NANOSTREAM_PACKET_SIZE = 1296 ∧ NANOSTREAM_PACKET_SIZE ≠ 64 + 4 * 300 := by
  refine ⟨rfl, ?_, rfl, by decide⟩
  intro p1 p2 pd hagree
  rw [nanostream_decode_tile_eq, nanostream_decode_tile_eq]
  have hmn : (fun i : Fin 8 => readF32 p1 (4 * i.val)) =
      (fun i : Fin 8 => readF32 p2 (4 * i.val)) := by
    funext i
    unfold readF32
    rw [hagree (4 * i.val) (by have := i.isLt; omega)]
  have hmx : (fun i : Fin 8 => readF32 p1 (32 + 4 * i.val)) =
      (fun i : Fin 8 => readF32 p2 (32 + 4 * i.val)) := by
    funext i
    unfold readF32
    rw [hagree (32 + 4 * i.val) (by have := i.isLt; omega)]
  rw [hmn, hmx]
  exact decode_chunks_congr M E pd p1 p2 _ _ block_order 64
    (fun a ha hb => hagree a (by rw [block_order_length] at hb; omega))

/-- Witness for C4 at the zero basis and a constant-zero tile, including one
application of the read-extent property to a concrete packet. -/
theorem packet_size_corrected_witness :
    (nanostream_encode_tile (fun _ => 0) (fun _ _ => 0) (fun _ => 0) 480).length = 64 + 4 * 300 ∧
    nanostream_decode_tile (fun _ => 0) (fun _ _ => 0) (fun _ => PByte.q 0) 480 =
      nanostream_decode_tile (fun _ => 0) (fun _ _ => 0) (fun _ => PByte.q 0) 480 ∧
    NANOSTREAM_PACKET_SIZE = 1296 ∧ NANOSTREAM_PACKET_SIZE ≠ 64 + 4 * 300 := by
  obtain ⟨h1, h2, h3, h4⟩ :=
    packet_size_corrected (fun _ => 0) (fun _ _ => 0) (fun _ => 0) 480
  exact ⟨h1, h2 _ _ 480 (fun a ha => rfl), h3, h4⟩

/-- Counterexample to C4 as stated: the packet-size constant is 1296 while
the encoder's actual output is 1264 bytes, so the constant does not match
the payload size. -/
theorem packet_size_claim_false :
    NANOSTREAM_PACKET_SIZE = 1296 ∧
    (nanostream_encode_tile (fun _ => 0) (fun _ _ => 0) (fun _ => 0) 480).length = 1264 ∧
    NANOSTREAM_PACKET_SIZE ≠
      (nanostream_encode_tile (fun _ => 0) (fun _ _ => 0) (fun _ => 0) 480).length := by
  refine ⟨rfl, rfl, ?_⟩
  have h : (nanostream_encode_tile (fun _ => 0) (fun _ _ => 0) (fun _ => 0) 480).length = 1264 := rfl
  rw [h]
  decide

/-- C8: CLI surface of the evaluation driver.  One required input path and
one optional output path defaulting to result.png; exit code 1 when the
input argument is missing or the file cannot be loaded; exit code 0
otherwise, with a non-fatal warning printed exactly when the width is not a
multiple of 160 or the height is not a multiple of 120. -/
theorem cli_driver_surface (argv : List String) (load : String → Option (ℕ × ℕ)) :
    (argv.length ≤ 1 → cli_main argv load = ⟨1, false, none⟩) ∧
    (∀ prog input rest, argv = prog :: input :: rest →
      ((load input = none → cli_main argv load = ⟨1, false, none⟩) ∧
       (∀ w h, load input = some (w, h) →
         (cli_main argv load).exitCode = 0 ∧
         (cli_main argv load).outputPath = some (rest.headD ("result.png")) ∧
         ((cli_main argv load).warned = true ↔ (¬ w % 160 = 0 ∨ ¬ h % 120 = 0))))) := by
  constructor
  · intro hlen
    match argv, hlen with
    | [], _ => rfl
    | [a], _ => rfl
  · intro prog input rest hargv
    subst hargv
    constructor
    · intro hnone
      simp only [cli_main, hnone]
    · intro w h hsome
      refine ⟨?_, ?_, ?_⟩
      · simp only [cli_main, hsome]
      · cases rest with
        | nil => simp only [cli_main, hsome, List.headD]
        | cons o tl => simp only [cli_main, hsome, List.headD]
      · simp only [cli_main, hsome]
        exact decide_eq_true_iff

/-- Witness for C8: a missing file exits 1; a readable 320x240 image exits 0
without a warning and writes the default output path. -/
theorem cli_driver_surface_witness :
    (cli_main ["nanostream", "in.png"] (fun _ => none)) = ⟨1, false, none⟩ ∧
    (cli_main ["nanostream", "in.png"] (fun _ => some (320, 240))).exitCode = 0 := by
  constructor
  · exact ((cli_driver_surface ["nanostream", "in.png"] (fun _ => none)).2
      ("nanostream") ("in.png") [] rfl).1 rfl
  · exact (((cli_driver_surface ["nanostream", "in.png"] (fun _ => some (320, 240))).2
      ("nanostream") ("in.png") [] rfl).2 320 240 rfl).1

end Nanostream
